import Mathlib

/-!
Verification development for the bindashtree pipeline (src/main.rs): k-mer
width dispatch, canonical k-mers, sketch-signature Hamming distance, the
Mash-style genetic distance transform, distance-matrix assembly and PHYLIP
serialization, tree-solver dispatch, and manifest-line reading.

Floating-point values (f32 signatures, f64 distances) are idealized as exact
rationals for the algebraic stages; the final logarithm maps into the reals.
Where IEEE behaviour diverges from the exact idealization (ln 0 = -inf), a
side predicate records the condition under which the IEEE result is finite.
-/

set_option autoImplicit false

namespace Bindashtree

/-! ## Sketch dispatcher (src/main.rs, sketch_genomes, lines 134-161) -/

/-- The three fixed-width k-mer representations the dispatcher can select:
`narrow` is Kmer32bit (k up to 14), `medium` is Kmer16b32bit (k exactly 16),
`wide` is Kmer64bit (k up to 32). -/
inductive KmerRep where
  | narrow
  | medium
  | wide
deriving DecidableEq, Repr

/-- Maximum representable k-mer size of each representation. -/
def maxK : KmerRep → Nat
  | .narrow => 14
  | .medium => 16
  | .wide => 32

/-- Embedding of the dispatch in `sketch_genomes`: `if kmer_size <= 14`
choose Kmer32bit; `else if kmer_size == 16` choose Kmer16b32bit;
`else if kmer_size <= 32` choose Kmer64bit; otherwise
`panic!("kmers cannot be 15 or greater than 32")`. -/
def sketchDispatch (kmer_size : Nat) : Except String KmerRep :=
  if kmer_size ≤ 14 then .ok .narrow
  else if kmer_size = 16 then .ok .medium
  else if kmer_size ≤ 32 then .ok .wide
  else .error "kmers cannot be 15 or greater than 32"

/-! ## Canonical k-mers (src/main.rs, hash_fn in sketch_with, lines 116-121)

A k-mer is k bases of 2 bits each, stored in a machine word; we model the
compressed value as a natural number below `4 ^ k`.

Modelled from the spec: `reverse_complement` lives in the external kmerutils
crate; the spec describes it as bit-reversal and complementation under the
chosen width, masked to the active k-mer's bit length, i.e. the bases in
reverse order with each base complemented (A<->T, C<->G, that is b -> 3 - b
in the 2-bit alphabet). -/

/-- Base (2-bit digit) `j` of the compressed k-mer value `x`. -/
def digit4 (j x : Nat) : Nat := x / 4 ^ j % 4

/-- Reverse complement of a k-base k-mer value: complement each 2-bit base
and reverse the order of the bases. -/
def revComp : Nat → Nat → Nat
  | 0, _ => 0
  | k + 1, x => (3 - x % 4) * 4 ^ k + revComp k (x / 4)

/-- Embedding of `hash_fn`: take the numerically smaller of the k-mer and its
reverse complement, then mask to the k-mer's bit length
(`& ((1 << 2k) - 1)`, i.e. `% 4 ^ k`). -/
def canonicalKmer (k x : Nat) : Nat :=
  min (revComp k x) x % 4 ^ k

/-! ## Distance estimator (src/main.rs, build_distance_matrix, lines 163-198)

Signatures are vectors of f32 values, idealized as rationals. -/

/-- DistHamming on f32 slices (anndists): the number of positions where the
two signatures differ. -/
def hammingCount (a b : List ℚ) : Nat :=
  (a.zip b).countP fun p => decide (p.1 ≠ p.2)

/-- DistHamming normalizes by the query length: fraction of differing
positions. -/
def distHamming (a b : List ℚ) : ℚ :=
  (hammingCount a b : ℚ) / (a.length : ℚ)

/-- `std::f32::EPSILON`, the f32 machine epsilon `2 ^ (-23)`. -/
def eps32 : ℚ := 1 / 2 ^ 23

/-- Lines 179-183: if the Hamming distance is exactly 0, substitute
`std::f32::EPSILON` for it. -/
def substHamming (a b : List ℚ) : ℚ :=
  if distHamming a b = 0 then eps32 else distHamming a b

/-- Line 184: `jaccard = 1.0 - hamming_distance`. -/
def jaccardOf (a b : List ℚ) : ℚ :=
  1 - substHamming a b

/-- Lines 185-187: `fraction = (2.0 * jaccard as f64) / ((1.0 + jaccard) as f64)`,
the argument handed to the double-precision logarithm. -/
def logArg (a b : List ℚ) : ℚ :=
  (2 * jaccardOf a b) / (1 + jaccardOf a b)

/-- Line 188 abstracted over the Jaccard value: the Mash-style genetic
distance transform `-ln(2 j / (1 + j)) / k`. -/
noncomputable def distanceTransform (k : Nat) (j : ℝ) : ℝ :=
  -Real.log (2 * j / (1 + j)) / (k : ℝ)

/-- Lines 178-189 composed: the distance stored for one genome pair. -/
noncomputable def pairDistance (k : Nat) (a b : List ℚ) : ℝ :=
  -Real.log ((logArg a b : ℚ) : ℝ) / (k : ℝ)

/-- In IEEE double precision `ln 0 = -inf`, so the stored entry
`-ln(fraction)/k` is finite exactly when the logarithm's argument is
nonzero (the argument is never negative for Hamming distances in [0,1]). -/
def entryFinite (a b : List ℚ) : Prop :=
  logArg a b ≠ 0

instance (a b : List ℚ) : Decidable (entryFinite a b) := by
  unfold entryFinite; infer_instance

/-! ## Matrix assembly (src/main.rs, lines 170-198) -/

/-- The upper-triangle index pairs `(i, j)` with `i < j < n`, in the order
produced by `(0..n).flat_map(|i| (i+1..n).map(move |j| (i, j)))`. -/
def pairsList (n : Nat) : List (Nat × Nat) :=
  (List.range n).flatMap fun i =>
    (List.range' (i + 1) (n - (i + 1))).map fun j => (i, j)

/-- `matrix[i][j] = v` on a functional matrix. -/
def setEntry (m : Nat → Nat → ℝ) (i j : Nat) (v : ℝ) : Nat → Nat → ℝ :=
  fun a b => if a = i ∧ b = j then v else m a b

/-- One iteration of the fill loop (lines 195-198): `matrix[i][j] = dist;
matrix[j][i] = dist;` for the computed pair `p`. -/
def pairStep (d : Nat → Nat → ℝ) (m : Nat → Nat → ℝ) (p : Nat × Nat) :
    Nat → Nat → ℝ :=
  setEntry (setEntry m p.1 p.2 (d p.1 p.2)) p.2 p.1 (d p.1 p.2)

/-- Lines 194-198: start from the zero matrix and, for each computed pair,
set `matrix[i][j]` and `matrix[j][i]` to the pair's distance. -/
def buildMatrix (n : Nat) (d : Nat → Nat → ℝ) : Nat → Nat → ℝ :=
  (pairsList n).foldl (pairStep d) (fun _ _ => 0)

/-! ## PHYLIP serialization (src/main.rs, lines 200-215) -/

/-- Split a character list at every occurrence of `sep` (the pieces, in
order, separators dropped). -/
def splitChar (sep : Char) : List Char → List Char → List (List Char)
  | acc, [] => [acc.reverse]
  | acc, c :: cs =>
      if c = sep then acc.reverse :: splitChar sep [] cs
      else splitChar sep (c :: acc) cs

/-- Model of `Path::file_name` on a UTF-8 path: the last component after
splitting on the separator, ignoring empty components and `.`; `none` when
there is no component or the last one is `..`. -/
def fileName (path : String) : Option String :=
  let comps := (splitChar '/' [] path.data).filter fun c => c ≠ [] ∧ c ≠ ['.']
  match comps.getLast? with
  | none => none
  | some c => if c = ['.', '.'] then none else some (String.mk c)

/-- Lines 203-207: the displayed genome name, the path's final filename
component with the full path as fallback. -/
def displayName (path : String) : String :=
  (fileName path).getD path

/-- Rust `"{:10}"` on a string: left-aligned, right-padded with spaces to a
minimum width of 10, never truncated. -/
def padName (s : String) : String :=
  s ++ String.mk (List.replicate (10 - s.length) ' ')

/-- Round a rational to the nearest integer, ties to even (the rounding Rust
applies when formatting a float with a fixed precision). -/
def roundHalfEven (q : ℚ) : ℤ :=
  let n := ⌊q⌋
  let f := q - (n : ℚ)
  if f < 1 / 2 then n
  else if 1 / 2 < f then n + 1
  else if 2 ∣ n then n else n + 1

/-- Render a nonnegative numerator of a 6-decimal fixed-point value. -/
def natFixed6 (r : Nat) : String :=
  let fr := toString (r % 1000000)
  toString (r / 1000000) ++ "." ++ String.mk (List.replicate (6 - fr.length) '0') ++ fr

/-- Rust `"{:8.6}"` on a (finite) f64, idealized over ℚ: 6 decimal digits,
right-aligned to a minimum width of 8. -/
def fmtFixed6 (q : ℚ) : String :=
  let r := roundHalfEven (q * 1000000)
  let s := if r < 0 then "-" ++ natFixed6 r.natAbs else natFixed6 r.toNat
  String.mk (List.replicate (8 - s.length) ' ') ++ s

/-- Concatenation of a list of strings, in order. -/
def concatList (l : List String) : String :=
  l.foldr (fun a b => a ++ b) ""

/-- Lines 200-213: `writeln!(_, "{}", n)`, then for each `i` in `0..n` a row
of `write!(_, "{:10}", name)` followed by `write!(_, " {:8.6}", matrix[i][j])`
for each `j` in `0..n` and a newline. -/
def serializeMatrix (genomes : List String) (m : Nat → Nat → ℚ) : String :=
  (List.range genomes.length).foldl
    (fun acc i =>
      ((List.range genomes.length).foldl
          (fun a j => a ++ " " ++ fmtFixed6 (m i j))
          (acc ++ padName (displayName (genomes.getD i "")))) ++ "\n")
    (toString genomes.length ++ "\n")

/-- The claim's reading of the name field: left-padded (right-aligned) to
width 10, truncated when longer. Written from the spec's words, to be
compared with `serializeMatrix`. -/
def specPadName (s : String) : String :=
  if s.length ≤ 10 then String.mk (List.replicate (10 - s.length) ' ') ++ s
  else String.mk (s.data.take 10)

/-- The serialized form the claim describes: count line, then per-genome rows
with left-padded/truncated names. Written from the spec's words. -/
def claimSerialize (genomes : List String) (m : Nat → Nat → ℚ) : String :=
  toString genomes.length ++ "\n" ++
    concatList ((List.range genomes.length).map fun i =>
      specPadName (displayName (genomes.getD i "")) ++
        concatList ((List.range genomes.length).map fun j =>
          " " ++ fmtFixed6 (m i j)) ++ "\n")

/-- Row `i` of the serialized matrix, as the amended claim describes it:
left-aligned name padded to width 10, then the row's distances each preceded
by a space, then a newline. -/
def rowLine (genomes : List String) (m : Nat → Nat → ℚ) (i : Nat) : String :=
  padName (displayName (genomes.getD i "")) ++
    concatList ((List.range genomes.length).map fun j =>
      " " ++ fmtFixed6 (m i j)) ++ "\n"

/-- The amended serialized form: count line, then one `rowLine` per genome in
input order. -/
def amendedSerialize (genomes : List String) (m : Nat → Nat → ℚ) : String :=
  toString genomes.length ++ "\n" ++
    concatList ((List.range genomes.length).map (rowLine genomes m))

/-! ## Tree builder (src/main.rs, build_tree, lines 218-242) -/

/-- The three tree-construction strategies. -/
inductive TreeAlgo where
  | Naive
  | RapidNJ
  | Hybrid
deriving DecidableEq, Repr

/-- The call made to the external speedytree solver, with the parameters the
pipeline passes: `Canonical::default` takes none, `RapidBtrees::build` takes
the chunk size, `Hybrid::build` takes the chunk size and the number of naive
reduction steps. -/
inductive SolverCall where
  | naive
  | rapidnj (chunk : Nat)
  | hybrid (chunk naiveSteps : Nat)
deriving DecidableEq, Repr

/-- Lines 227-238: strategy dispatch; `n` is `distance_matrix.size()`, the
genome count of the parsed matrix, and for the hybrid strategy
`naive_steps = n * naive_percentage / 100` in integer arithmetic. -/
def buildTree (tree_algo : TreeAlgo) (chunk_size naive_percentage n : Nat) :
    SolverCall :=
  match tree_algo with
  | .Naive => .naive
  | .RapidNJ => .rapidnj chunk_size
  | .Hybrid => .hybrid chunk_size (n * naive_percentage / 100)

/-! ## Manifest reading (src/main.rs, lines 360-365)

`BufRead::lines` yields each line without its terminating newline, also
dropping a carriage return that directly precedes that newline; a final
unterminated line is yielded as-is, and nothing is yielded past the final
terminator. Manifest bytes are modelled as a list of characters. -/

/-- Finish one line: the accumulator holds the line reversed; drop one
carriage return if the line ends with it (CRLF terminator). -/
def stripLine : List Char → List Char
  | [] => []
  | c :: a => if c = '\r' then a.reverse else (c :: a).reverse

/-- One step of `BufRead::lines`: accumulate characters until a newline,
emit the stripped line there; at end of input emit the pending line only if
it is nonempty. -/
def linesAux : List Char → List Char → List (List Char)
  | acc, [] => if acc.isEmpty then [] else [acc.reverse]
  | acc, c :: cs =>
      if c = '\n' then stripLine acc :: linesAux [] cs
      else linesAux (c :: acc) cs

/-- Lines 360-365: the genome list is exactly the manifest's lines, in
order, unfiltered. -/
def rustLines (cs : List Char) : List (List Char) :=
  linesAux [] cs

/-! ## f32 representability (for the epsilon-substitution claim) -/

/-- A rational is a finite single-precision value when it is
`m * 2 ^ e` with `|m| < 2 ^ 24` and `-149 ≤ e ≤ 104`; the smallest positive
such value is the subnormal `2 ^ (-149)`. -/
def isRepF32 (q : ℚ) : Prop :=
  ∃ m e : ℤ, |m| < 2 ^ 24 ∧ -149 ≤ e ∧ e ≤ 104 ∧ q = (m : ℚ) * 2 ^ e

/-! ## Claim C1 -/

/-- C1: the spec says k = 15 must be a fatal configuration error before any
sketching, and the panic message in `sketch_genomes` agrees ("kmers cannot be
15 or greater than 32"); but the dispatch chain tests `kmer_size <= 32`
before ever excluding 15, so k = 15 selects the Kmer64bit path and sketching
proceeds. -/
theorem dispatch_accepts_k15 : sketchDispatch 15 = Except.ok KmerRep.wide := rfl

/-! ## Claim C8 -/

/-- C8: with the hybrid strategy the solver is invoked with
`naive_steps = n * naive_percentage / 100` (integer division, `n` the parsed
matrix's genome count), and the naive strategy's invocation does not depend
on the chunk-size parameter. -/
theorem buildTree_hybrid_steps (chunk chunk' naive_percentage n : Nat) :
    buildTree TreeAlgo.Hybrid chunk naive_percentage n =
        SolverCall.hybrid chunk (n * naive_percentage / 100) ∧
      buildTree TreeAlgo.Naive chunk naive_percentage n =
        buildTree TreeAlgo.Naive chunk' naive_percentage n :=
  ⟨rfl, rfl⟩

/-! ## Claim C2 -/

/-- C2: for a pair with Hamming distance `h` in (0, 1] the stored distance is
exactly `-ln(2 (1 - h) / (1 + (1 - h))) / k` (in the exact-arithmetic
idealization of the f32/f64 computation). -/
theorem pairDistance_closed_form (k : Nat) (a b : List ℚ) (h : ℚ)
    (hh : distHamming a b = h) (h0 : 0 < h) (_h1 : h ≤ 1) :
    pairDistance k a b =
      -Real.log (2 * (1 - (h : ℝ)) / (1 + (1 - (h : ℝ)))) / (k : ℝ) := by
  have hne : distHamming a b ≠ 0 := by rw [hh]; exact ne_of_gt h0
  have hsub : substHamming a b = h := by
    unfold substHamming
    rw [if_neg hne, hh]
  have hlog : ((logArg a b : ℚ) : ℝ) = 2 * (1 - (h : ℝ)) / (1 + (1 - (h : ℝ))) := by
    unfold logArg jaccardOf
    rw [hsub]
    push_cast
    ring_nf
  unfold pairDistance
  rw [hlog]

/-- Witness for C2 at k = 16 and the signature pair [0,1] vs [0,0], whose
Hamming distance is 1/2. -/
theorem pairDistance_closed_form_witness :
    distHamming [(0 : ℚ), 1] [0, 0] = 1 / 2 ∧ (0 : ℚ) < 1 / 2 ∧ (1 / 2 : ℚ) ≤ 1 ∧
      pairDistance 16 [(0 : ℚ), 1] [0, 0] =
        -Real.log (2 * (1 - ((1 / 2 : ℚ) : ℝ)) / (1 + (1 - ((1 / 2 : ℚ) : ℝ)))) /
          ((16 : Nat) : ℝ) :=
  ⟨by norm_num [distHamming, hammingCount], by norm_num, by norm_num,
    pairDistance_closed_form 16 [(0 : ℚ), 1] [0, 0] (1 / 2)
      (by norm_num [distHamming, hammingCount]) (by norm_num) (by norm_num)⟩

/-! ## Claim C3 -/

/-- C3 counterexample: the value the code substitutes for a zero Hamming
distance is `std::f32::EPSILON = 2 ^ (-23)`, which is not the smallest
representable positive single-precision value: the subnormal `2 ^ (-149)` is
representable, positive and smaller. -/
theorem subst_eps_not_smallest_f32 :
    substHamming [(0 : ℚ)] [0] = eps32 ∧ isRepF32 ((2 : ℚ) ^ (-149 : ℤ)) ∧
      0 < (2 : ℚ) ^ (-149 : ℤ) ∧ (2 : ℚ) ^ (-149 : ℤ) < eps32 :=
  ⟨by norm_num [substHamming, distHamming, hammingCount],
    ⟨1, -149, by norm_num, by norm_num, by norm_num, by norm_num⟩,
    by positivity, by norm_num [eps32]⟩

/-- C3 amended: when the Hamming distance is exactly 0 the pipeline
substitutes the f32 machine epsilon `2 ^ (-23)` before the Jaccard and
genetic-distance transforms, so the resulting distance is positive. -/
theorem zero_hamming_gives_positive_distance (k : Nat) (a b : List ℚ)
    (hk : 0 < k) (_hlen : 0 < a.length) (h0 : distHamming a b = 0) :
    substHamming a b = eps32 ∧ 0 < pairDistance k a b := by
  have hsub : substHamming a b = eps32 := by simp [substHamming, h0]
  refine ⟨hsub, ?_⟩
  have hla : logArg a b = 16777214 / 16777215 := by
    unfold logArg jaccardOf
    rw [hsub]
    norm_num [eps32]
  have hcast : ((logArg a b : ℚ) : ℝ) = 16777214 / 16777215 := by
    rw [hla]; push_cast; ring
  have hlog : Real.log ((logArg a b : ℚ) : ℝ) < 0 := by
    rw [hcast]
    exact Real.log_neg (by norm_num) (by norm_num)
  have hk' : (0 : ℝ) < (k : ℝ) := by exact_mod_cast hk
  unfold pairDistance
  exact div_pos (by linarith) hk'

/-- Witness for C3 at k = 16 and the identical signatures [0] and [0]. -/
theorem zero_hamming_gives_positive_distance_witness :
    0 < 16 ∧ 0 < ([(0 : ℚ)] : List ℚ).length ∧ distHamming [(0 : ℚ)] [0] = 0 ∧
      (substHamming [(0 : ℚ)] [0] = eps32 ∧ 0 < pairDistance 16 [(0 : ℚ)] [0]) :=
  ⟨by norm_num, by norm_num, by norm_num [distHamming, hammingCount],
    zero_hamming_gives_positive_distance 16 [(0 : ℚ)] [0] (by norm_num)
      (by norm_num) (by norm_num [distHamming, hammingCount])⟩

/-! ## Claim C9 -/

/-- C9: with the k-mer size fixed, the genetic-distance transform
`j ↦ -ln(2 j / (1 + j)) / k` is strictly decreasing on (0, 1]. -/
theorem distanceTransform_strict_anti (k : Nat) (a b : ℝ)
    (hk : 0 < k) (ha : 0 < a) (hb : b ≤ 1) (hab : a < b) :
    distanceTransform k b < distanceTransform k a := by
  have h1a : (0 : ℝ) < 1 + a := by linarith
  have h1b : (0 : ℝ) < 1 + b := by linarith
  have hga : (0 : ℝ) < 2 * a / (1 + a) := by positivity
  have hlt : 2 * a / (1 + a) < 2 * b / (1 + b) := by
    rw [div_lt_div_iff₀ h1a h1b]
    nlinarith
  have hlog := Real.log_lt_log hga hlt
  have hk' : (0 : ℝ) < (k : ℝ) := by exact_mod_cast hk
  unfold distanceTransform
  apply div_lt_div_of_pos_right _ hk'
  linarith

/-- Witness for C9 at k = 16, comparing Jaccard similarities 1/2 and 1. -/
theorem distanceTransform_strict_anti_witness :
    0 < 16 ∧ (0 : ℝ) < 1 / 2 ∧ (1 : ℝ) ≤ 1 ∧ (1 / 2 : ℝ) < 1 ∧
      distanceTransform 16 1 < distanceTransform 16 (1 / 2) :=
  ⟨by norm_num, by norm_num, by norm_num, by norm_num,
    distanceTransform_strict_anti 16 (1 / 2) 1 (by norm_num) (by norm_num)
      (by norm_num) (by norm_num)⟩

/-! ## Claim C4 -/

/-- The normalized Hamming distance is nonnegative. -/
theorem distHamming_nonneg (a b : List ℚ) : 0 ≤ distHamming a b := by
  unfold distHamming
  positivity

/-- C4 counterexample: the valid equal-length signatures [0] and [1] have
Hamming distance exactly 1, so `jaccard = 0` and the double-precision
logarithm receives the argument 0; IEEE `ln 0 = -inf`, so the stored entry
`-ln(0)/k = +inf` is not finite. -/
theorem entry_infinite_at_hamming_one :
    distHamming [(0 : ℚ)] [1] = 1 ∧ ¬entryFinite [(0 : ℚ)] [1] := by
  constructor
  · norm_num [distHamming, hammingCount]
  · simp only [entryFinite, not_not]
    norm_num [logArg, jaccardOf, substHamming, distHamming, hammingCount]

/-- C4 amended: the distance computation is total, and for every pair of
equal-length nonempty signatures whose Hamming distance is strictly below 1
the stored entry is finite (nonzero logarithm argument) and nonnegative;
that bound is necessary, since Hamming distance exactly 1 yields
`-ln(0)/k = +inf`. -/
theorem entries_finite_and_nonneg (k : Nat) (a b : List ℚ)
    (hk : 0 < k) (_hlen : a.length = b.length) (_hpos : 0 < a.length)
    (hlt : distHamming a b < 1) :
    entryFinite a b ∧ 0 ≤ pairDistance k a b := by
  have hnn := distHamming_nonneg a b
  have hsub0 : 0 < substHamming a b := by
    unfold substHamming
    split_ifs with hz
    · norm_num [eps32]
    · exact lt_of_le_of_ne hnn (Ne.symm hz)
  have hsub1 : substHamming a b < 1 := by
    unfold substHamming
    split_ifs with hz
    · norm_num [eps32]
    · exact hlt
  have hj0 : 0 < jaccardOf a b := by unfold jaccardOf; linarith
  have hj1 : jaccardOf a b < 1 := by unfold jaccardOf; linarith
  have hla0 : 0 < logArg a b := by
    unfold logArg
    positivity
  have hla1 : logArg a b < 1 := by
    unfold logArg
    rw [div_lt_one (by linarith)]
    linarith
  refine ⟨ne_of_gt hla0, ?_⟩
  have hc0 : (0 : ℝ) < ((logArg a b : ℚ) : ℝ) := by exact_mod_cast hla0
  have hc1 : ((logArg a b : ℚ) : ℝ) < 1 := by exact_mod_cast hla1
  have hlog : Real.log ((logArg a b : ℚ) : ℝ) < 0 := Real.log_neg hc0 hc1
  have hk' : (0 : ℝ) < (k : ℝ) := by exact_mod_cast hk
  unfold pairDistance
  exact le_of_lt (div_pos (by linarith) hk')

/-- Witness for C4 at k = 16 and the signatures [0,1], [0,0] with Hamming
distance 1/2. -/
theorem entries_finite_and_nonneg_witness :
    0 < 16 ∧ ([(0 : ℚ), 1] : List ℚ).length = ([(0 : ℚ), 0] : List ℚ).length ∧
      0 < ([(0 : ℚ), 1] : List ℚ).length ∧ distHamming [(0 : ℚ), 1] [0, 0] < 1 ∧
      (entryFinite [(0 : ℚ), 1] [0, 0] ∧ 0 ≤ pairDistance 16 [(0 : ℚ), 1] [0, 0]) :=
  ⟨by norm_num, by norm_num, by norm_num,
    by norm_num [distHamming, hammingCount],
    entries_finite_and_nonneg 16 [(0 : ℚ), 1] [0, 0] (by norm_num) (by norm_num)
      (by norm_num) (by norm_num [distHamming, hammingCount])⟩

/-! ## Claim C5 -/

/-- Every pair the distance loop produces is strictly upper-triangular. -/
theorem mem_pairsList_lt {n : Nat} {p : Nat × Nat} (hp : p ∈ pairsList n) :
    p.1 < p.2 := by
  unfold pairsList at hp
  simp only [List.mem_flatMap, List.mem_map, List.mem_range] at hp
  obtain ⟨i, _, j, hj, rfl⟩ := hp
  have := List.mem_range'_1.mp hj
  omega

/-- A mirrored write at an off-diagonal pair preserves symmetry and the zero
diagonal. -/
theorem pairStep_preserves (d : Nat → Nat → ℝ) (m : Nat → Nat → ℝ)
    (p : Nat × Nat) (hp : p.1 ≠ p.2)
    (hsym : ∀ i j, m i j = m j i) (hdiag : ∀ i, m i i = 0) :
    (∀ i j, pairStep d m p i j = pairStep d m p j i) ∧
      (∀ i, pairStep d m p i i = 0) := by
  constructor
  · intro i j
    unfold pairStep setEntry
    split_ifs <;> first | rfl | tauto
  · intro i
    unfold pairStep setEntry
    split_ifs <;> first | exact hdiag i | (exfalso; omega)

/-- Folding mirrored writes over off-diagonal pairs preserves symmetry and
the zero diagonal. -/
theorem foldl_pairStep_inv (d : Nat → Nat → ℝ) :
    ∀ (L : List (Nat × Nat)) (m : Nat → Nat → ℝ),
      (∀ p ∈ L, p.1 ≠ p.2) →
      (∀ i j, m i j = m j i) → (∀ i, m i i = 0) →
      (∀ i j, L.foldl (pairStep d) m i j = L.foldl (pairStep d) m j i) ∧
        (∀ i, L.foldl (pairStep d) m i i = 0)
  | [], _, _, hsym, hdiag => ⟨hsym, hdiag⟩
  | p :: L, m, hL, hsym, hdiag => by
      have hp : p.1 ≠ p.2 := hL p (List.mem_cons_self p L)
      have hstep := pairStep_preserves d m p hp hsym hdiag
      rw [List.foldl_cons]
      exact foldl_pairStep_inv d L (pairStep d m p)
        (fun q hq => hL q (List.mem_cons_of_mem p hq)) hstep.1 hstep.2

/-- C5: the assembled distance matrix is symmetric with an exactly-zero
diagonal, for every genome count and every pairwise distance function. -/
theorem buildMatrix_symm_zero_diag (n : Nat) (d : Nat → Nat → ℝ) :
    (∀ i j, buildMatrix n d i j = buildMatrix n d j i) ∧
      (∀ i, buildMatrix n d i i = 0) := by
  unfold buildMatrix
  exact foldl_pairStep_inv d (pairsList n) (fun _ _ => 0)
    (fun p hp => Nat.ne_of_lt (mem_pairsList_lt hp))
    (fun _ _ => rfl) (fun _ => rfl)

/-! ## Claim C7 -/

/-- The reverse complement of a k-base k-mer fits in k bases. -/
theorem revComp_lt (k : Nat) : ∀ x, revComp k x < 4 ^ k := by
  induction k with
  | zero => intro x; simp [revComp]
  | succ k ih =>
    intro x
    have h1 : (3 - x % 4) * 4 ^ k ≤ 3 * 4 ^ k :=
      Nat.mul_le_mul_right _ (by omega)
    have h2 := ih (x / 4)
    have h4 : 4 ^ (k + 1) = 4 * 4 ^ k := by ring
    show (3 - x % 4) * 4 ^ k + revComp k (x / 4) < 4 ^ (k + 1)
    omega

/-- Base `j` of the reverse complement is the complement of base
`k - 1 - j` of the original k-mer. -/
theorem digit4_revComp (k : Nat) :
    ∀ x j, j < k → digit4 j (revComp k x) = 3 - digit4 (k - 1 - j) x := by
  induction k with
  | zero => intro x j hj; exact absurd hj (Nat.not_lt_zero j)
  | succ k ih =>
    intro x j hj
    show digit4 j ((3 - x % 4) * 4 ^ k + revComp k (x / 4)) = _
    by_cases hjk : j < k
    · have hsplit : (3 - x % 4) * 4 ^ k + revComp k (x / 4) =
          revComp k (x / 4) + (3 - x % 4) * 4 ^ (k - j) * 4 ^ j := by
        have : 4 ^ (k - j) * 4 ^ j = 4 ^ k := by
          rw [← pow_add]
          congr 1
          omega
        rw [mul_assoc, this]
        omega
      unfold digit4
      rw [hsplit, Nat.add_mul_div_right _ _ (Nat.pos_pow_of_pos j (by norm_num))]
      have hkj : k - j = k - j - 1 + 1 := by omega
      rw [hkj, pow_succ, ← mul_assoc, Nat.add_mul_mod_self_right]
      have hlow := ih (x / 4) j hjk
      unfold digit4 at hlow
      rw [hlow]
      have hcollapse : x / 4 / 4 ^ (k - 1 - j) = x / 4 ^ (k - j) := by
        rw [Nat.div_div_eq_div_mul, ← pow_succ']
        have hexp : k - 1 - j + 1 = k - j := by omega
        rw [hexp]
      rw [hcollapse]
      have hfin : k + 1 - 1 - j = k - j := by omega
      rw [hfin]
    · have hj' : j = k := by omega
      rw [hj']
      unfold digit4
      have hR := revComp_lt k (x / 4)
      have hcomm : (3 - x % 4) * 4 ^ k + revComp k (x / 4) =
          revComp k (x / 4) + (3 - x % 4) * 4 ^ k := by omega
      rw [hcomm, Nat.add_mul_div_right _ _ (Nat.pos_pow_of_pos k (by norm_num)),
        Nat.div_eq_of_lt hR]
      have : (0 + (3 - x % 4)) % 4 = 3 - x % 4 := by omega
      rw [this]
      have hidx : k + 1 - 1 - k = 0 := by omega
      rw [hidx]
      simp [pow_zero, Nat.div_one]

/-- Two k-base values with equal bases are equal. -/
theorem digit4_ext : ∀ (k x y : Nat), x < 4 ^ k → y < 4 ^ k →
    (∀ j, j < k → digit4 j x = digit4 j y) → x = y := by
  intro k
  induction k with
  | zero =>
    intro x y hx hy _
    simp only [pow_zero, Nat.lt_one_iff] at hx hy
    omega
  | succ k ih =>
    intro x y hx hy hd
    have hpow : 4 ^ (k + 1) = 4 * 4 ^ k := by ring
    have h0 : x % 4 = y % 4 := by
      have h := hd 0 (Nat.succ_pos k)
      unfold digit4 at h
      simpa using h
    have hdiv : x / 4 = y / 4 := by
      apply ih
      · have : x < 4 * 4 ^ k := hpow ▸ hx
        omega
      · have : y < 4 * 4 ^ k := hpow ▸ hy
        omega
      · intro j hj
        have h := hd (j + 1) (Nat.succ_lt_succ hj)
        unfold digit4 at h ⊢
        have hx4 : x / 4 ^ (j + 1) = x / 4 / 4 ^ j := by
          rw [Nat.div_div_eq_div_mul, ← pow_succ']
        have hy4 : y / 4 ^ (j + 1) = y / 4 / 4 ^ j := by
          rw [Nat.div_div_eq_div_mul, ← pow_succ']
        rw [hx4, hy4] at h
        exact h
    omega

/-- The reverse complement is an involution on valid k-mers. -/
theorem revComp_involution (k x : Nat) (hx : x < 4 ^ k) :
    revComp k (revComp k x) = x := by
  apply digit4_ext k _ _ (revComp_lt k _) hx
  intro j hj
  rw [digit4_revComp k _ j hj, digit4_revComp k x (k - 1 - j) (by omega)]
  have hidx : k - 1 - (k - 1 - j) = j := by omega
  rw [hidx]
  have hd3 : digit4 j x < 4 := Nat.mod_lt _ (by norm_num)
  omega

/-- C7: the canonicalization in `hash_fn` is strand-independent: a k-mer and
its reverse complement canonicalize to the same masked value. -/
theorem canonicalKmer_strand_indep (k x : Nat) (hx : x < 4 ^ k) :
    canonicalKmer k x = canonicalKmer k (revComp k x) := by
  unfold canonicalKmer
  rw [revComp_involution k x hx, Nat.min_comm]

/-- Witness for C7 at k = 3 and the k-mer value 5. -/
theorem canonicalKmer_strand_indep_witness :
    5 < 4 ^ 3 ∧ canonicalKmer 3 5 = canonicalKmer 3 (revComp 3 5) :=
  ⟨by norm_num, canonicalKmer_strand_indep 3 5 (by norm_num)⟩

/-! ## Claim C6 -/

/-- Unfolding lemma for `concatList`. -/
theorem concatList_cons (a : String) (l : List String) :
    concatList (a :: l) = a ++ concatList l := rfl

/-- A left fold that appends one piece per element is the initial string
followed by the concatenation of the pieces. -/
theorem foldl_append_concat (f : Nat → String) :
    ∀ (L : List Nat) (init : String),
      L.foldl (fun acc i => acc ++ f i) init = init ++ concatList (L.map f)
  | [], init => by
      show init = init ++ concatList []
      rw [concatList]
      simp
  | x :: xs, init => by
      rw [List.map_cons, List.foldl_cons, foldl_append_concat f xs (init ++ f x),
        concatList_cons, ← String.append_assoc]

/-- The inner loop of the serializer writes the row's formatted distances
after the accumulated text. -/
theorem inner_fold_eq (m : Nat → Nat → ℚ) (i : Nat) (L : List Nat) (init : String) :
    L.foldl (fun a j => a ++ " " ++ fmtFixed6 (m i j)) init =
      init ++ concatList (L.map fun j => " " ++ fmtFixed6 (m i j)) := by
  have hstep : (fun (a : String) j => a ++ " " ++ fmtFixed6 (m i j)) =
      fun a j => a ++ (" " ++ fmtFixed6 (m i j)) := by
    funext a j
    rw [String.append_assoc]
  rw [hstep]
  exact foldl_append_concat (fun j => " " ++ fmtFixed6 (m i j)) L init

/-- C6 counterexample: the serializer left-aligns the name field (padding on
the right) and never truncates, so on the genomes ["a", "abcdefghijkl"] the
output differs from the claimed left-padded/truncated rendering. -/
theorem serialize_not_left_padded :
    serializeMatrix ["a", "abcdefghijkl"] (fun _ _ => 0) ≠
      claimSerialize ["a", "abcdefghijkl"] (fun _ _ => 0) := by
  have h0 : fmtFixed6 0 = "0.000000" := by
    norm_num [fmtFixed6, roundHalfEven, natFixed6]
    rfl
  simp only [serializeMatrix, claimSerialize, List.length_cons, List.length_nil,
    List.range_succ, List.range_zero, List.nil_append, List.map_append,
    List.map_cons, List.map_nil, List.foldl_append, List.foldl_cons,
    List.foldl_nil, h0]
  decide

/-- C6 amended: for every genome list and matrix, the serialized text is the
genome count on its own first line followed by one line per genome in input
order: the display name left-aligned (right-padded with spaces) to a minimum
width of 10 and untruncated, then that row's distances, each preceded by a
space and formatted with 6 decimal digits. -/
theorem serializeMatrix_structure (gs : List String) (m : Nat → Nat → ℚ) :
    serializeMatrix gs m = amendedSerialize gs m := by
  unfold serializeMatrix amendedSerialize
  have hstep : (fun (acc : String) i =>
      ((List.range gs.length).foldl
          (fun a j => a ++ " " ++ fmtFixed6 (m i j))
          (acc ++ padName (displayName (gs.getD i "")))) ++ "\n") =
      fun acc i => acc ++ rowLine gs m i := by
    funext acc i
    rw [inner_fold_eq]
    unfold rowLine
    simp only [String.append_assoc]
  rw [hstep, foldl_append_concat (rowLine gs m)]

/-! ## Claim C10 -/

/-- Reading up to the next newline emits the accumulated line (stripped of a
trailing carriage return) and continues. -/
theorem linesAux_line (t : List Char) :
    ∀ (l acc : List Char), (∀ c ∈ l, c ≠ '\n') →
      linesAux acc (l ++ '\n' :: t) = stripLine (l.reverse ++ acc) :: linesAux [] t
  | [], acc, _ => by
      simp [linesAux]
  | c :: l, acc, h => by
      have hc : c ≠ '\n' := h c (List.mem_cons_self c l)
      show linesAux acc (c :: (l ++ '\n' :: t)) = _
      rw [linesAux, if_neg hc]
      rw [linesAux_line t l (c :: acc) (fun d hd => h d (List.mem_cons_of_mem c hd))]
      simp [List.append_assoc]

/-- Completing a line that does not end in a carriage return returns it
verbatim. -/
theorem stripLine_no_cr (l : List Char) (h : l.getLast? ≠ some '\r') :
    stripLine l.reverse = l := by
  cases hl : l.reverse with
  | nil =>
    have : l = [] := by simpa using congrArg List.reverse hl
    simp [this, stripLine]
  | cons c a =>
    have hlast : l.getLast? = some c := by
      rw [← List.head?_reverse, hl]
      rfl
    have hc : c ≠ '\r' := by
      intro hcr
      exact h (hcr ▸ hlast)
    rw [stripLine, if_neg hc, ← hl, List.reverse_reverse]

/-- C10: a manifest consisting of newline-terminated lines (none containing
an interior newline or ending in a carriage return) is read back verbatim:
every line, including empty ones and duplicates and without any trimming,
becomes one genome path, and the genome count equals the line count. -/
theorem rustLines_reads_lines_verbatim (ls : List (List Char))
    (h : ∀ l ∈ ls, (∀ c ∈ l, c ≠ '\n') ∧ l.getLast? ≠ some '\r') :
    rustLines ((ls.map (fun l => l ++ ['\n'])).flatten) = ls := by
  induction ls with
  | nil => rfl
  | cons l ls ih =>
    have hl := h l (List.mem_cons_self l ls)
    unfold rustLines
    simp only [List.map_cons, List.flatten_cons, List.append_assoc]
    show linesAux [] (l ++ '\n' :: (ls.map (fun l => l ++ ['\n'])).flatten) = l :: ls
    rw [linesAux_line _ l [] hl.1]
    rw [List.append_nil, stripLine_no_cr l hl.2]
    exact congrArg (l :: ·) (ih fun q hq => h q (List.mem_cons_of_mem l hq))

/-- Witness for C10 on a manifest with a duplicate path, an empty line and a
path with surrounding spaces: "a\n\n b \na\n". -/
theorem rustLines_reads_lines_verbatim_witness :
    (∀ l ∈ [['a'], ([] : List Char), [' ', 'b', ' '], ['a']],
        (∀ c ∈ l, c ≠ '\n') ∧ l.getLast? ≠ some '\r') ∧
      rustLines (([['a'], ([] : List Char), [' ', 'b', ' '], ['a']].map
          (fun l => l ++ ['\n'])).flatten) =
        [['a'], ([] : List Char), [' ', 'b', ' '], ['a']] :=
  ⟨by decide,
    rustLines_reads_lines_verbatim [['a'], [], [' ', 'b', ' '], ['a']] (by decide)⟩

end Bindashtree
